import Mathlib

/-!
Verification of the Kyber KEM core of the KYBER_on_RISC-V32 repository
(round-2 parameter generation, `crypto_kem/*/ *r2` code line).

The C sources of the cryptographic core (`kem.c`, `indcpa.c`, `poly.c`,
`cbd.c`, `verify.c`, `ntt.c`, `params.h`) are not shipped in this tree;
what is shipped is the repository's documentation set
(`Kyber/docs/keygen/*.md`), which quotes the decisive code fragments
verbatim, one real header (`crypto_kem/kyber768/kyber768r2/symmetric.h`),
and the build scripts.  Definitions below are translated from the quoted
code fragments where those exist, and otherwise modelled from the spec
(each such definition says so in its doc comment).  External collaborators
(hash, XOF, PRF, RNG) are taken as function parameters with their stated
length contracts, exactly as the spec's §6 prescribes.
-/

namespace KyberRV32

/-! ## Round-2 parameter table (k ∈ {2,3,4}, q = 3329, degree 256).
Modelled from the spec and the size tables in
`Kyber/docs/keygen/07_encoding_and_output.md` (params.h is absent):
12-bit coefficients, 384 bytes per polynomial, pk = k·384 + 32,
sk = k·384 + pk + 64. -/

def kyberN : Nat := 256

def kyberQ : Nat := 3329

def kyberSymBytes : Nat := 32

def kyberSSBytes : Nat := 32

def kyberPolyBytes : Nat := 384

def kyberPolyVecBytes (k : Nat) : Nat := k * kyberPolyBytes

def kyberIndcpaPublicKeyBytes (k : Nat) : Nat := kyberPolyVecBytes k + kyberSymBytes

def kyberIndcpaSecretKeyBytes (k : Nat) : Nat := kyberPolyVecBytes k

def kyberPublicKeyBytes (k : Nat) : Nat := kyberIndcpaPublicKeyBytes k

def kyberSecretKeyBytes (k : Nat) : Nat :=
  kyberIndcpaSecretKeyBytes k + kyberIndcpaPublicKeyBytes k + 2 * kyberSymBytes

/-- Bytes are natural numbers < 256; lists model C byte buffers. -/
abbrev Bytes : Type := List Nat

/-! ## Constant-time helpers (`verify.c`).

`verify.c` itself is absent from the tree; `cmov` and `verify`
are modelled from the spec's words: "a branchless conditional select
between the two candidate secrets" (§4.6 step 5) and "Compare
`ciphertext'` to the received ciphertext in constant time" (§4.6 step 4),
using the standard mask arithmetic such code uses (two's-complement mask
of the condition byte, xor/and selection, or-accumulated byte
difference). -/

/-- Modelled from the spec: the branchless conditional select of
`verify.c`.  `cmovMask b` is the two's complement of the byte `b`:
`0` for `b = 0`, `0xFF` for `b = 1`. -/
def cmovMask (b : Nat) : Nat := (256 - b % 256) % 256

/-- Modelled from the spec: `cmov r x b` returns `x` wherever the mask is
all-ones and `r` wherever it is zero, computed without a branch:
`r[i] xor (mask and (r[i] xor x[i]))`. -/
def cmov (r x : Bytes) (b : Nat) : Bytes :=
  List.zipWith (fun ri xi => ri ^^^ (cmovMask b &&& (ri ^^^ xi))) r x

/-- Modelled from the spec: constant-time buffer comparison of `verify.c`:
or-accumulate the bytewise xor, then map zero to 0 and anything nonzero
to 1 by the arithmetic, branch-free, step `(-(u64)r) >> 63`. -/
def verifyAcc (a b : Bytes) : Nat :=
  (List.zipWith (fun x y => x ^^^ y) a b).foldl (fun acc d => acc ||| d) 0

/-- Modelled from the spec: the 0/1 failure flag returned by `verify`. -/
def verify (a b : Bytes) : Nat :=
  ((2 ^ 64 - verifyAcc a b % 2 ^ 64) % 2 ^ 64) / 2 ^ 63

theorem cmovMask_zero : cmovMask 0 = 0 := rfl

theorem cmovMask_one : cmovMask 1 = 255 := rfl

theorem two_pow_eight : (2 : Nat) ^ 8 = 256 := by norm_num

theorem xor_lt_256 (a b : Nat) (ha : a < 256) (hb : b < 256) : a ^^^ b < 256 := by
  rw [← two_pow_eight] at ha hb ⊢
  exact Nat.xor_lt_two_pow ha hb

theorem or_lt_256 (a b : Nat) (ha : a < 256) (hb : b < 256) : a ||| b < 256 := by
  rw [← two_pow_eight] at ha hb ⊢
  exact Nat.or_lt_two_pow ha hb

theorem nat_or_eq_zero (a b : Nat) (h : a ||| b = 0) : a = 0 ∧ b = 0 := by
  have h1 : a ≤ a ||| b := Nat.le_of_testBit (by intro i hi; simp [Nat.testBit_or, hi])
  have h2 : b ≤ a ||| b := Nat.le_of_testBit (by intro i hi; simp [Nat.testBit_or, hi])
  omega

theorem byte_and_255 (v : Nat) (hv : v < 256) : 255 &&& v = v := by
  have h : (255 : Nat) = 2 ^ 8 - 1 := rfl
  rw [h, Nat.land_comm, Nat.and_pow_two_sub_one_eq_mod]
  exact Nat.mod_eq_of_lt hv

theorem cmov_zero (r x : Bytes) (h : r.length = x.length) : cmov r x 0 = r := by
  induction r generalizing x with
  | nil => rfl
  | cons a t ih =>
    cases x with
    | nil => simp at h
    | cons b u =>
      show (a ^^^ (cmovMask 0 &&& (a ^^^ b))) :: cmov t u 0 = a :: t
      rw [cmovMask_zero, Nat.zero_and, Nat.xor_zero, ih u (by simpa using h)]

theorem cmov_one (r x : Bytes) (h : r.length = x.length)
    (hr : ∀ v ∈ r, v < 256) (hx : ∀ v ∈ x, v < 256) : cmov r x 1 = x := by
  induction r generalizing x with
  | nil =>
    cases x with
    | nil => rfl
    | cons b u => simp at h
  | cons a t ih =>
    cases x with
    | nil => simp at h
    | cons b u =>
      show (a ^^^ (cmovMask 1 &&& (a ^^^ b))) :: cmov t u 1 = b :: u
      have hab : a ^^^ b < 256 := xor_lt_256 a b (hr a (by simp)) (hx b (by simp))
      rw [cmovMask_one, byte_and_255 _ hab, ← Nat.xor_assoc, Nat.xor_self, Nat.zero_xor]
      rw [ih u (by simpa using h) (fun v hv => hr v (by simp [hv]))
        (fun v hv => hx v (by simp [hv]))]

theorem foldl_or_shift (l : List Nat) (acc : Nat) :
    l.foldl (fun acc d => acc ||| d) acc = acc ||| l.foldl (fun acc d => acc ||| d) 0 := by
  induction l generalizing acc with
  | nil => simp
  | cons z w ih =>
    simp only [List.foldl]
    rw [ih (acc ||| z), ih (0 ||| z), Nat.zero_or, Nat.or_assoc]

theorem verifyAcc_cons (a b : Nat) (t u : Bytes) :
    verifyAcc (a :: t) (b :: u) = (a ^^^ b) ||| verifyAcc t u := by
  show List.foldl _ 0 ((a ^^^ b) :: List.zipWith _ t u) = _
  simp only [List.foldl]
  rw [foldl_or_shift, Nat.zero_or]
  rfl

theorem verifyAcc_eq_zero_iff (a b : Bytes) (h : a.length = b.length) :
    verifyAcc a b = 0 ↔ a = b := by
  induction a generalizing b with
  | nil =>
    cases b with
    | nil => simp [verifyAcc]
    | cons y u => simp at h
  | cons x t ih =>
    cases b with
    | nil => simp at h
    | cons y u =>
      rw [verifyAcc_cons]
      constructor
      · intro h0
        obtain ⟨h1, h2⟩ := nat_or_eq_zero _ _ h0
        have hxy : x = y := Nat.xor_eq_zero.mp h1
        have htu : t = u := (ih u (by simpa using h)).mp h2
        rw [hxy, htu]
      · intro he
        injection he with h1 h2
        subst h1
        subst h2
        rw [Nat.xor_self, Nat.zero_or]
        exact (ih t rfl).mpr rfl

theorem verifyAcc_lt (a b : Bytes) (ha : ∀ v ∈ a, v < 256) (hb : ∀ v ∈ b, v < 256) :
    verifyAcc a b < 256 := by
  induction a generalizing b with
  | nil => simp [verifyAcc]
  | cons x t ih =>
    cases b with
    | nil => simp [verifyAcc]
    | cons y u =>
      rw [verifyAcc_cons]
      have hxy : x ^^^ y < 256 := xor_lt_256 x y (ha x (by simp)) (hb y (by simp))
      have hrest : verifyAcc t u < 256 :=
        ih u (fun v hv => ha v (by simp [hv])) (fun v hv => hb v (by simp [hv]))
      exact or_lt_256 _ _ hxy hrest

theorem verify_eq_zero_of_eq (a b : Bytes) (h : a = b) : verify a b = 0 := by
  have hacc : verifyAcc a b = 0 := by
    subst h
    exact (verifyAcc_eq_zero_iff a a rfl).mpr rfl
  simp [verify, hacc]

theorem verify_eq_one_of_ne (a b : Bytes) (h : a.length = b.length)
    (ha : ∀ v ∈ a, v < 256) (hb : ∀ v ∈ b, v < 256) (hne : a ≠ b) : verify a b = 1 := by
  have hacc : verifyAcc a b ≠ 0 := fun h0 => hne ((verifyAcc_eq_zero_iff a b h).mp h0)
  have hlt : verifyAcc a b < 256 := verifyAcc_lt a b ha hb
  unfold verify
  have hmod : verifyAcc a b % 2 ^ 64 = verifyAcc a b :=
    Nat.mod_eq_of_lt (lt_trans hlt (by norm_num))
  rw [hmod]
  have h1 : 0 < verifyAcc a b := Nat.pos_of_ne_zero hacc
  have h2 : 2 ^ 64 - verifyAcc a b < 2 ^ 64 := by omega
  rw [Nat.mod_eq_of_lt h2]
  have h3 : (2 : Nat) ^ 63 ≤ 2 ^ 64 - verifyAcc a b := by
    have h4 : verifyAcc a b ≤ 2 ^ 63 := le_trans (le_of_lt hlt) (by norm_num)
    have h5 : (2 : Nat) ^ 63 + 2 ^ 63 = 2 ^ 64 := by norm_num
    omega
  have h6 : (2 : Nat) ^ 64 - verifyAcc a b < 2 ^ 63 * 2 := by
    have h5 : (2 : Nat) ^ 63 * 2 = 2 ^ 64 := by norm_num
    omega
  have h7 : (2 ^ 64 - verifyAcc a b) / 2 ^ 63 < 2 := Nat.div_lt_of_lt_mul h6
  have h8 : 1 ≤ (2 ^ 64 - verifyAcc a b) / 2 ^ 63 :=
    (Nat.le_div_iff_mul_le (by norm_num)).mpr (by omega)
  omega

/-- `verify` is the equality test, packaged as the 0/1 flag the C code
feeds to `cmov`. -/
theorem verify_spec (a b : Bytes) (h : a.length = b.length)
    (ha : ∀ v ∈ a, v < 256) (hb : ∀ v ∈ b, v < 256) :
    verify a b = if a = b then 0 else 1 := by
  by_cases he : a = b
  · subst he
    simp [verify_eq_zero_of_eq a a rfl]
  · simp [he, verify_eq_one_of_ne a b h ha hb he]

/-! ## Randomness entry and seed expansion (`indcpa_keypair` front end).

Translated from the code quoted verbatim in
`Kyber/docs/keygen/02_randomness_and_seeds.md` (r2 `indcpa.c:197-205`):

    randombytes(buf, KYBER_SYMBYTES);   /* draw 32-byte random seed d   */
    hash_g(buf, buf, KYBER_SYMBYTES);   /* G(d) -> 64 bytes = rho‖sigma */

with `publicseed = buf` (first 32 bytes) and
`noiseseed = buf + KYBER_SYMBYTES` (second 32 bytes). -/

/-- The external RNG: a deterministic byte stream plus the status code the
`randombytes` implementation returns (`0` on success in the shipped
implementation; the docs note callers never read it). -/
structure RNG where
  out : Nat → Nat
  status : Nat

/-- `randombytes(buf, n)` reading `n` bytes at stream offset `off`,
returning the filled buffer together with the status code. -/
def randombytes (r : RNG) (off n : Nat) : Bytes × Nat :=
  ((List.range n).map (fun i => r.out (off + i) % 256), r.status)

/-- The `hash_g` expansion step of `indcpa_keypair`: apply the external
512-bit hash to `d` and split the 64-byte digest into
`(publicseed, noiseseed)` = `(rho, sigma)`. -/
def seedExpand (hashG : Bytes → Bytes) (d : Bytes) : Bytes × Bytes :=
  let buf := hashG d
  (buf.take kyberSymBytes, (buf.drop kyberSymBytes).take kyberSymBytes)

/-- The complete randomness front end of `indcpa_keypair`: one 32-byte
`randombytes` draw for `d`, then `seedExpand`. -/
def indcpaSeeds (hashG : Bytes → Bytes) (r : RNG) : Bytes × Bytes × Bytes :=
  let d := (randombytes r 0 kyberSymBytes).1
  let s := seedExpand hashG d
  (d, s.1, s.2)

theorem randombytes_length (r : RNG) (off n : Nat) :
    (randombytes r off n).1.length = n := by
  simp [randombytes]

theorem randombytes_lt (r : RNG) (off n : Nat) :
    ∀ v ∈ (randombytes r off n).1, v < 256 := by
  intro v hv
  simp only [randombytes, List.mem_map] at hv
  obtain ⟨i, _, hi⟩ := hv
  omega

/-! ## Noise sampling nonce discipline (`indcpa_keypair` middle).

Translated from the loop quoted verbatim in `src/unnamed/part_002`
(r2 `indcpa.c:208-211`):

    unsigned char nonce = 0;
    for(i=0;i<KYBER_K;i++) poly_getnoise(skpv.vec+i, noiseseed, nonce++);
    for(i=0;i<KYBER_K;i++) poly_getnoise(e.vec+i, noiseseed, nonce++);

`getnoise` abstracts the body of `poly_getnoise`
(`prf(buf, KYBER_ETA*KYBER_N/4, seed, nonce); cbd(r, buf);`), a
deterministic function of `(seed, nonce)`; the nonce is a C
`unsigned char`, but `2*k ≤ 8 < 256`, so no wraparound occurs and `Nat`
is faithful. -/

/-- One C `for` loop of `cnt` `poly_getnoise` calls threading the
post-incremented `nonce`; returns the sampled polynomials and the final
nonce value. -/
def noiseLoop (getnoise : Bytes → Nat → List Nat) (sigma : Bytes) :
    Nat → Nat → List (List Nat) × Nat
  | nonce, 0 => ([], nonce)
  | nonce, cnt + 1 =>
    let p := getnoise sigma nonce
    let rest := noiseLoop getnoise sigma (nonce + 1) cnt
    (p :: rest.1, rest.2)

/-- The two sampling loops of `indcpa_keypair`: `s` first, then `e`,
one shared nonce counter starting at 0. -/
def indcpaSampleNoise (getnoise : Bytes → Nat → List Nat) (sigma : Bytes) (k : Nat) :
    List (List Nat) × List (List Nat) × Nat :=
  let s := noiseLoop getnoise sigma 0 k
  let e := noiseLoop getnoise sigma s.2 k
  (s.1, e.1, e.2)

theorem noiseLoop_eq_map (getnoise : Bytes → Nat → List Nat) (sigma : Bytes) :
    ∀ (cnt nonce : Nat),
      noiseLoop getnoise sigma nonce cnt =
        ((List.range cnt).map (fun i => getnoise sigma (nonce + i)), nonce + cnt) := by
  intro cnt
  induction cnt with
  | zero => intro nonce; simp [noiseLoop]
  | succ c ih =>
    intro nonce
    simp only [noiseLoop, ih (nonce + 1)]
    rw [List.range_succ_eq_map]
    simp only [List.map_cons, List.map_map, Prod.mk.injEq]
    refine ⟨?_, by omega⟩
    rw [Nat.add_zero]
    refine congrArg (getnoise sigma nonce :: ·) (List.map_congr_left ?_)
    intro i _
    simp only [Function.comp_apply]
    congr 1
    omega

/-! ## Matrix generation (`gen_matrix` / `rej_uniform`, r2 path).

Translated from the code quoted in
`Kyber/docs/keygen/05_ntt_and_matrix_generation.md` (r2
`indcpa.c:155-183`):

    xof_absorb(&state, seed, j, i);
    xof_squeezeblocks(buf, maxnblocks, &state);
    ctr = rej_uniform(a[i].vec[j].coeffs, KYBER_N, ...);
    while(ctr < KYBER_N) {
      xof_squeezeblocks(buf, 1, &state);
      ctr += rej_uniform(...);
    }

`rej_uniform` itself is absent from the tree and is modelled from the
spec (§4.3): parse 13-bit candidates from consecutive byte pairs of the
squeezed stream and "accept candidate values strictly less than `q`,
discarding the rest".  The XOF is the external SHAKE-128 collaborator,
modelled as a deterministic block stream indexed by the absorbed
`(seed, x, y)` and the block number; a block is 168 bytes and in
particular of even length, so batching squeezes does not change which
byte pairs are parsed, and the model squeezes uniformly one block per
loop step. -/

/-- The XOF collaborator: `(seed, x, y, blockIndex) ↦ block bytes`. -/
abbrev XofFun : Type := Bytes → Nat → Nat → Nat → Bytes

/-- The streaming XOF state: what has been absorbed plus the squeeze
block counter. -/
structure XofState where
  seed : Bytes
  x : Nat
  y : Nat
  blk : Nat

/-- `kyber_shake128_absorb`: (re)initializes the state from scratch from
`seed ‖ x ‖ y`; in particular the squeeze-block counter restarts at `0`
regardless of what the previous state held. -/
def xofAbsorb (_ : XofState) (seed : Bytes) (x y : Nat) : XofState :=
  ⟨seed, x, y, 0⟩

/-- `xof_squeezeblocks` with `nblocks = 1`: emit the next block of the
stream and advance the block counter. -/
def xofSqueezeBlock (xof : XofFun) (st : XofState) : Bytes × XofState :=
  (xof st.seed st.x st.y st.blk, ⟨st.seed, st.x, st.y, st.blk + 1⟩)

/-- Modelled from the spec: the 13-bit candidates parsed from consecutive
little-endian byte pairs of the XOF stream. -/
def parse13 : Bytes → List Nat
  | b0 :: b1 :: rest => ((b0 + 256 * b1) % 8192) :: parse13 rest
  | _ => []

/-- Modelled from the spec: `rej_uniform` — walk the buffer two bytes at
a time, accept a candidate iff it is strictly less than `q`, stop after
`need` accepted coefficients or when the buffer is exhausted. -/
def rejUniform : Bytes → Nat → List Nat
  | b0 :: b1 :: rest, need + 1 =>
    if (b0 + 256 * b1) % 8192 < kyberQ then
      ((b0 + 256 * b1) % 8192) :: rejUniform rest need
    else
      rejUniform rest (need + 1)
  | _, _ => []

/-- The per-entry squeeze/reject loop (`while(ctr < KYBER_N)`), with
explicit fuel standing for the (unbounded) C loop; `none` models
non-termination of the C loop on an adversarial stream. -/
def entryLoop (xof : XofFun) : Nat → XofState → List Nat → Option (List Nat × XofState)
  | 0, st, acc => if acc.length = kyberN then some (acc, st) else none
  | fuel + 1, st, acc =>
    if acc.length = kyberN then some (acc, st)
    else
      let sq := xofSqueezeBlock xof st
      entryLoop xof fuel sq.2 (acc ++ rejUniform sq.1 (kyberN - acc.length))

/-- One `gen_matrix` loop body: absorb `(seed, x, y)` into the incoming
state (which resets it), then run the squeeze/reject loop. -/
def genMatrixEntryFrom (xof : XofFun) (fuel : Nat) (seed : Bytes) (x y : Nat)
    (st0 : XofState) : Option (List Nat × XofState) :=
  entryLoop xof fuel (xofAbsorb st0 seed x y) []

/-- The pure per-entry sampler: `sampleMatrixEntry(seed, x, y)` run on a
fresh XOF stream starting at block 0. -/
def sampleMatrixEntry (xof : XofFun) (fuel : Nat) (seed : Bytes) (x y : Nat) :
    Option (List Nat) :=
  (entryLoop xof fuel ⟨seed, x, y, 0⟩ []).map Prod.fst

/-- Row-major traversal order of the two nested `gen_matrix` loops:
entry number `t` is `(row, col) = (t / k, t % k)`. -/
def genMatrixPairs (k : Nat) : List (Nat × Nat) :=
  (List.range (k * k)).map (fun t => (t / k, t % k))

/-- The sequential `gen_matrix` loop over all `(i, j)`, threading the one
`xof_state` variable of the C code from entry to entry. -/
def entriesLoop (xof : XofFun) (fuel : Nat) (seed : Bytes) (transposed : Bool) :
    List (Nat × Nat) → XofState → Option (List (List Nat))
  | [], _ => some []
  | ij :: rest, st =>
    let x := if transposed then ij.1 else ij.2
    let y := if transposed then ij.2 else ij.1
    match genMatrixEntryFrom xof fuel seed x y st with
    | none => none
    | some pst =>
      match entriesLoop xof fuel seed transposed rest pst.2 with
      | none => none
      | some ps => some (pst.1 :: ps)

/-- `gen_matrix(a, seed, transposed)`: the flat row-major list of the
`k × k` sampled entries. -/
def gen_matrix (xof : XofFun) (fuel : Nat) (seed : Bytes) (transposed : Bool)
    (k : Nat) : Option (List (List Nat)) :=
  entriesLoop xof fuel seed transposed (genMatrixPairs k) ⟨[], 0, 0, 0⟩

theorem rejUniform_eq :
    ∀ (buf : Bytes) (need : Nat),
      rejUniform buf need =
        ((parse13 buf).filter (fun v => decide (v < kyberQ))).take need
  | [], need => by simp [rejUniform, parse13]
  | [b0], need => by simp [rejUniform, parse13]
  | b0 :: b1 :: rest, 0 => by
    simp [rejUniform]
  | b0 :: b1 :: rest, need + 1 => by
    by_cases hv : (b0 + 256 * b1) % 8192 < kyberQ
    · simp only [rejUniform, if_pos hv, parse13, List.filter_cons,
        decide_eq_true_eq, hv, if_pos, List.take_succ_cons]
      rw [rejUniform_eq rest need]
    · simp only [rejUniform, if_neg hv, parse13, List.filter_cons,
        decide_eq_true_eq, hv, if_neg, List.take_succ_cons]
      rw [rejUniform_eq rest (need + 1)]
      simp [hv]

theorem rejUniform_mem_lt (buf : Bytes) (need : Nat) :
    ∀ c ∈ rejUniform buf need, c < kyberQ := by
  intro c hc
  rw [rejUniform_eq] at hc
  have h1 := List.mem_of_mem_take hc
  have h2 := List.of_mem_filter h1
  simpa using h2

theorem entryLoop_some (xof : XofFun) :
    ∀ (fuel : Nat) (st : XofState) (acc : List Nat) (p : List Nat) (st2 : XofState),
      (∀ c ∈ acc, c < kyberQ) → entryLoop xof fuel st acc = some (p, st2) →
      p.length = kyberN ∧ ∀ c ∈ p, c < kyberQ := by
  intro fuel
  induction fuel with
  | zero =>
    intro st acc p st2 hacc h
    simp only [entryLoop] at h
    by_cases hl : acc.length = kyberN
    · rw [if_pos hl] at h
      injection h with h1
      injection h1 with h2 h3
      subst h2
      exact ⟨hl, hacc⟩
    · rw [if_neg hl] at h
      exact absurd h (by simp)
  | succ f ih =>
    intro st acc p st2 hacc h
    simp only [entryLoop] at h
    by_cases hl : acc.length = kyberN
    · rw [if_pos hl] at h
      injection h with h1
      injection h1 with h2 h3
      subst h2
      exact ⟨hl, hacc⟩
    · rw [if_neg hl] at h
      refine ih _ _ p st2 ?_ h
      intro c hc
      rcases List.mem_append.mp hc with hc1 | hc2
      · exact hacc c hc1
      · exact rejUniform_mem_lt _ _ c hc2

theorem genMatrixEntryFrom_state_free (xof : XofFun) (fuel : Nat) (seed : Bytes)
    (x y : Nat) (st0 : XofState) :
    genMatrixEntryFrom xof fuel seed x y st0 = entryLoop xof fuel ⟨seed, x, y, 0⟩ [] := rfl

theorem entriesLoop_get (xof : XofFun) (fuel : Nat) (seed : Bytes) (transposed : Bool) :
    ∀ (pairs : List (Nat × Nat)) (st : XofState) (m : List (List Nat)),
      entriesLoop xof fuel seed transposed pairs st = some m →
      m.length = pairs.length ∧
      ∀ idx : Nat,
        m.get? idx = (pairs.get? idx).bind (fun ij =>
          sampleMatrixEntry xof fuel seed (if transposed then ij.1 else ij.2)
            (if transposed then ij.2 else ij.1)) := by
  intro pairs
  induction pairs with
  | nil =>
    intro st m h
    simp only [entriesLoop] at h
    injection h with h1
    subst h1
    refine ⟨rfl, ?_⟩
    intro idx
    simp
  | cons ij rest ih =>
    intro st m h
    simp only [entriesLoop] at h
    cases he : genMatrixEntryFrom xof fuel seed (if transposed then ij.1 else ij.2)
        (if transposed then ij.2 else ij.1) st with
    | none => rw [he] at h; exact absurd h (by simp)
    | some pst =>
      rw [he] at h
      dsimp only at h
      cases hr : entriesLoop xof fuel seed transposed rest pst.2 with
      | none => rw [hr] at h; exact absurd h (by simp)
      | some ps =>
        rw [hr] at h
        injection h with h1
        subst h1
        obtain ⟨hlen, hget⟩ := ih pst.2 ps hr
        refine ⟨by simp [hlen], ?_⟩
        intro idx
        cases idx with
        | zero =>
          simp only [List.get?, Option.some_bind]
          have hs : sampleMatrixEntry xof fuel seed (if transposed then ij.1 else ij.2)
              (if transposed then ij.2 else ij.1) = some pst.1 := by
            unfold sampleMatrixEntry
            rw [← genMatrixEntryFrom_state_free xof fuel seed _ _ st, he]
            rfl
          rw [hs]
        | succ n =>
          simp only [List.get?]
          exact hget n

theorem rowMajor_get (k i j : Nat) (hi : i < k) (hj : j < k) :
    (genMatrixPairs k).get? (i * k + j) = some (i, j) := by
  have hk : 0 < k := by omega
  have hidx : i * k + j < k * k := by
    have h1 : i * k + j < i * k + k := by omega
    have h2 : i * k + k = (i + 1) * k := by ring
    have h3 : (i + 1) * k ≤ k * k := Nat.mul_le_mul_right k hi
    omega
  have hdiv : (i * k + j) / k = i := by
    rw [Nat.mul_comm i k, Nat.add_comm]
    rw [Nat.add_mul_div_left j i hk]
    rw [Nat.div_eq_of_lt hj]
    omega
  have hmod : (i * k + j) % k = j := by
    rw [Nat.mul_comm i k, Nat.add_comm]
    rw [Nat.add_mul_mod_self_left]
    exact Nat.mod_eq_of_lt hj
  unfold genMatrixPairs
  rw [List.get?_map, List.get?_range hidx]
  simp [hdiv, hmod]

/-! ## Byte encoding and key assembly.

`pack_pk`/`pack_sk` are translated from the code quoted in
`Kyber/docs/keygen/07_encoding_and_output.md` (r2 `indcpa.c:20-26`):
`polyvec_tobytes(r, pk); r[i+KYBER_POLYVECBYTES] = seed[i];` and
`polyvec_tobytes(r, sk)`.  `poly_tobytes` itself is absent and its 12-bit
packing is modelled from the spec (§4.5): "canonical fixed-width packing,
`bitsPerCoefficient` bits each, no padding between coefficients
(bit-packed, not byte-aligned per coefficient)" — two 12-bit
coefficients packed into three bytes. -/

/-- Modelled from the spec: two 12-bit coefficients into three bytes. -/
def packPair (t0 t1 : Nat) : Bytes :=
  [t0 % 256, t0 / 256 + 16 * (t1 % 16), t1 / 16]

/-- Modelled from the spec: `poly_tobytes`, pairwise over the 256
coefficients. -/
def polyToBytes : List Nat → Bytes
  | t0 :: t1 :: rest => packPair t0 t1 ++ polyToBytes rest
  | _ => []

/-- `polyvec_tobytes`: concatenation of the per-polynomial encodings. -/
def polyvecToBytes (v : List (List Nat)) : Bytes := (v.map polyToBytes).join

/-- `pack_pk` (r2): full polyvec bytes followed by the 32-byte seed. -/
def pack_pk (t : List (List Nat)) (seed : Bytes) : Bytes := polyvecToBytes t ++ seed

/-- `pack_sk`: polyvec bytes of the secret vector. -/
def pack_sk (s : List (List Nat)) : Bytes := polyvecToBytes s

theorem polyToBytes_length : ∀ p : List Nat, (polyToBytes p).length = 3 * (p.length / 2)
  | [] => rfl
  | [t0] => by norm_num [polyToBytes]
  | t0 :: t1 :: rest => by
    show (packPair t0 t1 ++ polyToBytes rest).length = _
    rw [List.length_append, polyToBytes_length rest]
    show 3 + 3 * (rest.length / 2) = 3 * ((rest.length + 2) / 2)
    rw [Nat.add_div_right rest.length (by norm_num)]
    ring

theorem polyvecToBytes_length (v : List (List Nat)) (hv : ∀ p ∈ v, p.length = kyberN) :
    (polyvecToBytes v).length = v.length * kyberPolyBytes := by
  induction v with
  | nil => rfl
  | cons p vs ih =>
    show (polyToBytes p ++ polyvecToBytes vs).length = _
    rw [List.length_append, polyToBytes_length p, hv p (by simp),
      ih (fun q hq => hv q (by simp [hq]))]
    show 3 * (256 / 2) + vs.length * 384 = (vs.length + 1) * 384
    ring_nf

theorem pack_pk_length (k : Nat) (t : List (List Nat)) (seed : Bytes)
    (ht : t.length = k) (htp : ∀ p ∈ t, p.length = kyberN)
    (hs : seed.length = kyberSymBytes) :
    (pack_pk t seed).length = kyberPublicKeyBytes k := by
  show (polyvecToBytes t ++ seed).length = _
  rw [List.length_append, polyvecToBytes_length t htp, ht, hs]
  rfl

theorem pack_sk_length (k : Nat) (s : List (List Nat))
    (hs : s.length = k) (hsp : ∀ p ∈ s, p.length = kyberN) :
    (pack_sk s).length = kyberIndcpaSecretKeyBytes k := by
  show (polyvecToBytes s).length = _
  rw [polyvecToBytes_length s hsp, hs]
  rfl

theorem take_append_exact (a rest : Bytes) (n : Nat) (h : a.length = n) :
    (a ++ rest).take n = a := by
  subst h
  exact List.take_left a rest

theorem drop_append_exact (a rest : Bytes) (n : Nat) (h : a.length = n) :
    (a ++ rest).drop n = rest := by
  subst h
  exact List.drop_left a rest

/-! ## `indcpa_keypair` and `crypto_kem_keypair`.

Translated from the code quoted in
`Kyber/docs/keygen/01_overview.md`, `02_randomness_and_seeds.md` and
`07_encoding_and_output.md` (r2 `kem.c:23-28`, `indcpa.c:196-...`):

    indcpa_keypair(pk, sk);
    for(i=0;i<KYBER_INDCPA_PUBLICKEYBYTES;i++)
      sk[i+KYBER_INDCPA_SECRETKEYBYTES] = pk[i];
    hash_h(sk+KYBER_SECRETKEYBYTES-2*KYBER_SYMBYTES, pk, KYBER_PUBLICKEYBYTES);
    randombytes(sk+KYBER_SECRETKEYBYTES-KYBER_SYMBYTES, KYBER_SYMBYTES);
    return 0;

The algebraic middle of `indcpa_keypair` (matrix, sampling, NTT algebra
producing `t` and `s`) is passed in as `core : (rho, sigma) ↦ (t, s)`;
its stages are modelled and verified separately in this file
(`gen_matrix`, `noiseLoop`, `toTransform`/`fromTransform`).  Both
`randombytes` statuses are computed and, exactly as in the quoted code,
never consulted: the KEM status is the constant `0`. -/

/-- `indcpa_keypair`: seed draw, expansion, algebraic core, packing.
Returns `(pk, sk0, dStatus)` where `dStatus` is the ignored status of the
`randombytes` call drawing `d`. -/
def indcpa_keypair (hashG : Bytes → Bytes)
    (core : Bytes → Bytes → List (List Nat) × List (List Nat))
    (r : RNG) : Bytes × Bytes × Nat :=
  let d := randombytes r 0 kyberSymBytes
  let s := seedExpand hashG d.1
  let ts := core s.1 s.2
  (pack_pk ts.1 s.1, pack_sk ts.2, d.2)

/-- `crypto_kem_keypair`: wrap the K-PKE pair into the CCA secret key
`sk = sk0 ‖ pk ‖ H(pk) ‖ z` and return status `0` unconditionally. -/
def crypto_kem_keypair (hashG hashH : Bytes → Bytes)
    (core : Bytes → Bytes → List (List Nat) × List (List Nat))
    (r : RNG) : Bytes × Bytes × Nat :=
  let pksk := indcpa_keypair hashG core r
  let z := randombytes r kyberSymBytes kyberSymBytes
  let sk := pksk.2.1 ++ (pksk.1 ++ (hashH pksk.1 ++ z.1))
  (pksk.1, sk, 0)

/-! ## The KEM layer: encapsulation and decapsulation (FO transform).

The bodies of `crypto_kem_enc`/`crypto_kem_dec` in `kem.c` are absent
from the tree; they are modelled from the spec (§4.6) and from the
decapsulation description in
`Kyber/docs/keygen/02_randomness_and_seeds.md:315-327` (`pk` recovered at
offset `KYBER_INDCPA_SECRETKEYBYTES`, stored `H(pk)` reused for the
coins, `z` applied "via constant-time move when ciphertext verification
fails").  The K-PKE primitives `indcpa_enc`/`indcpa_dec` are passed in as
deterministic functions `enc`/`dec`; the hashes and `shake256` are the
external collaborators of spec §6. -/

/-- Translated from `symmetric.h:62-63` (shipped, SHAKE branch):
`kdf(OUT, IN, INBYTES)` is `shake256(OUT, KYBER_SSBYTES, IN, INBYTES)` —
output length pinned to `KYBER_SSBYTES` whatever the input length. -/
def kdf (shake256 : Nat → Bytes → Bytes) (input : Bytes) : Bytes :=
  shake256 kyberSSBytes input

/-- Modelled from the spec (§4.6 Encapsulate steps 2-7), message `m`
supplied by the caller: `(K̄, coins) = G(m ‖ H(pk))`,
`c = indcpa_enc(pk, m, coins)`, shared secret `kdf(K̄ ‖ H(c))`. -/
def crypto_kem_enc (hashH hashG : Bytes → Bytes)
    (shake256 : Nat → Bytes → Bytes)
    (enc : Bytes → Bytes → Bytes → Bytes) (pk m : Bytes) : Bytes × Bytes :=
  let kr := hashG (m ++ hashH pk)
  let c := enc pk m (kr.drop kyberSymBytes)
  (c, kdf shake256 (kr.take kyberSymBytes ++ hashH c))

/-- Modelled from the spec (§4.6 Decapsulate steps 1-5): decode the
`sk` fields at their fixed offsets, decrypt, re-encrypt
deterministically with the stored `H(pk)` as binding hash, compare with
the constant-time `verify`, select between `K̄` and `z` with the
branchless `cmov`, and hash the selection against `hash(ciphertext)`.
The second component is the C return status — the constant `0`: no
error path exists. -/
def crypto_kem_dec (k : Nat) (hashH hashG : Bytes → Bytes)
    (shake256 : Nat → Bytes → Bytes)
    (enc : Bytes → Bytes → Bytes → Bytes) (dec : Bytes → Bytes → Bytes)
    (sk c : Bytes) : Bytes × Nat :=
  let skpke := sk.take (kyberIndcpaSecretKeyBytes k)
  let pk := (sk.drop (kyberIndcpaSecretKeyBytes k)).take (kyberPublicKeyBytes k)
  let hpk := (sk.drop (kyberSecretKeyBytes k - 2 * kyberSymBytes)).take kyberSymBytes
  let z := (sk.drop (kyberSecretKeyBytes k - kyberSymBytes)).take kyberSymBytes
  let m2 := dec skpke c
  let kr := hashG (m2 ++ hpk)
  let c2 := enc pk m2 (kr.drop kyberSymBytes)
  let fail := verify c2 c
  let ksel := cmov (kr.take kyberSymBytes) z fail
  (kdf shake256 (ksel ++ hashH c), 0)

/-! ## `symmetric.h` variant selection (the one C file shipped verbatim). -/

/-- Translated from `symmetric.h:11-13`: under `KYBER_90S` an `#error`
("90s variant of Kyber can only generate keys of length 256 bits")
rejects the translation unit unless `KYBER_SSBYTES == 32`; the SHAKE
branch has no such guard.  `true` means the unit compiles. -/
def symmetricHCompiles (kyber90s : Bool) (ssbytes : Nat) : Bool :=
  !(kyber90s && !(ssbytes == 32))

/-- Translated from `symmetric.h:20`: the 90s `kdf` is `sha256`, whose
digest length is 32 bytes whatever the input length. -/
def kdf90s (sha256 : Bytes → Bytes) (input : Bytes) : Bytes := sha256 input

/-- Translated from `symmetric.h:62-63`: the SHAKE `kdf` squeezes exactly
`KYBER_SSBYTES` bytes whatever the input length. -/
def kdfFips (shake256 : Nat → Bytes → Bytes) (ssbytes : Nat) (input : Bytes) : Bytes :=
  shake256 ssbytes input

/-! ## The NTT engine (spec §4.2).

The transform ships only as RISC-V assembly (`ntt_2.S`, `invntt_2.S`,
listed in the build script) and is absent from the tree; it is modelled
from the spec: a negacyclic number-theoretic transform over the
coefficient field `ZMod q` for a parameter set with
`q ≡ 1 (mod 2·degree)` (spec §3, so a complete transform exists), using
precomputed constants — the root `psi`, its inverse, and the scaling
factor that the "from-Montgomery"/normalization step multiplies in after
the inverse transform (spec §4.2: "each an involution up to a known
scaling factor that must be corrected"). -/

/-- Modelled from the spec: the forward transform,
`t[i] = Σ_j p[j] · ψ^((2·i+1)·j)`. -/
def toTransform (q n : Nat) (psi : ZMod q) (p : Fin n → ZMod q) : Fin n → ZMod q :=
  fun i => ∑ jp : Fin n, p jp * psi ^ ((2 * (i : Nat) + 1) * (jp : Nat))

/-- Modelled from the spec: the raw inverse transform (before the
scaling correction), `r[j] = Σ_i t[i] · ψ⁻¹^((2·i+1)·j)`. -/
def fromTransformRaw (q n : Nat) (psiInv : ZMod q) (t : Fin n → ZMod q) :
    Fin n → ZMod q :=
  fun j => ∑ i : Fin n, t i * psiInv ^ ((2 * (i : Nat) + 1) * (j : Nat))

/-- Modelled from the spec: the normalization ("from-Montgomery"/scaling
correction) applied after the inverse transform: multiply every
coefficient by the precomputed scaling constant. -/
def nttNormalize (q n : Nat) (nInv : ZMod q) (p : Fin n → ZMod q) : Fin n → ZMod q :=
  fun j => nInv * p j

theorem sum_pow_odd (q : Nat) (c : ZMod q) (n : Nat) :
    ∑ i in Finset.range n, c ^ (2 * i + 1) =
      c * ∑ i in Finset.range n, (c ^ 2) ^ i := by
  rw [Finset.mul_sum]
  refine Finset.sum_congr rfl ?_
  intro i _
  rw [← pow_mul, pow_succ, mul_comm]

theorem geom_sum_zero_of_root (q : Nat) (hq : Nat.Prime q) (x : ZMod q) (n : Nat)
    (hx : x ^ n = 1) (hne : x ≠ 1) : ∑ i in Finset.range n, x ^ i = 0 := by
  haveI : Fact (Nat.Prime q) := ⟨hq⟩
  rw [geom_sum_eq hne, hx, sub_self, zero_div]

theorem psiInv_eq (q : Nat) (psi psiInv : ZMod q) (hq : Nat.Prime q)
    (hinv : psi * psiInv = 1) : psiInv = psi⁻¹ := by
  haveI : Fact (Nat.Prime q) := ⟨hq⟩
  have hpsine : psi ≠ 0 := left_ne_zero_of_mul_eq_one hinv
  field_simp
  linear_combination hinv

theorem ntt_inner (q n : Nat) (hq : Nat.Prime q) (psi psiInv : ZMod q)
    (hinv : psi * psiInv = 1) (hpsi : psi ^ n = -1)
    (hord : ∀ d : Nat, d < n → 0 < d → psi ^ (2 * d) ≠ 1) (j jp : Fin n) :
    ∑ i in Finset.range n, (psi ^ (jp : Nat) * psiInv ^ (j : Nat)) ^ (2 * i + 1) =
      if jp = j then (n : ZMod q) else 0 := by
  haveI : Fact (Nat.Prime q) := ⟨hq⟩
  have hpsine : psi ≠ 0 := left_ne_zero_of_mul_eq_one hinv
  have hInvEq : psiInv = psi⁻¹ := psiInv_eq q psi psiInv hq hinv
  by_cases hjj : jp = j
  · subst hjj
    have hc : psi ^ (jp : Nat) * psiInv ^ (jp : Nat) = 1 := by
      rw [← mul_pow, hinv, one_pow]
    rw [hc]
    simp [Finset.sum_const, Finset.card_range]
  · rw [if_neg hjj, sum_pow_odd]
    set c := psi ^ (jp : Nat) * psiInv ^ (j : Nat) with hcdef
    have hxn : (c ^ 2) ^ n = 1 := by
      have hcn : c ^ n = (-1 : ZMod q) ^ ((jp : Nat) + (j : Nat)) := by
        rw [hcdef, mul_pow, ← pow_mul, ← pow_mul,
          Nat.mul_comm (jp : Nat) n, Nat.mul_comm (j : Nat) n,
          pow_mul, pow_mul, hpsi, hInvEq, inv_pow, hpsi, pow_add]
        norm_num
      rw [← pow_mul, Nat.mul_comm 2 n, pow_mul, hcn, ← pow_mul,
        Nat.mul_comm ((jp : Nat) + (j : Nat)) 2, pow_mul]
      norm_num
    have hxne : c ^ 2 ≠ 1 := by
      intro hx1
      have hc2 : c ^ 2 = psi ^ (2 * (jp : Nat)) * psiInv ^ (2 * (j : Nat)) := by
        rw [hcdef, mul_pow, ← pow_mul, ← pow_mul,
          Nat.mul_comm (jp : Nat) 2, Nat.mul_comm (j : Nat) 2]
      rw [hc2] at hx1
      have hps : psi ^ (2 * (jp : Nat)) = psi ^ (2 * (j : Nat)) := by
        have hz : psiInv ^ (2 * (j : Nat)) = (psi ^ (2 * (j : Nat)))⁻¹ := by
          rw [hInvEq, inv_pow]
        rw [hz] at hx1
        have hpne : psi ^ (2 * (j : Nat)) ≠ 0 := pow_ne_zero _ hpsine
        field_simp at hx1
        exact hx1
      have hvne : (jp : Nat) ≠ (j : Nat) := fun he => hjj (Fin.ext he)
      rcases Nat.lt_or_ge (jp : Nat) (j : Nat) with hlt | hge
      · have hd : 2 * (j : Nat) = 2 * (jp : Nat) + 2 * ((j : Nat) - (jp : Nat)) := by
          omega
        rw [hd, pow_add] at hps
        have hcancel : psi ^ (2 * ((j : Nat) - (jp : Nat))) = 1 := by
          have hpne : psi ^ (2 * (jp : Nat)) ≠ 0 := pow_ne_zero _ hpsine
          have h1 : psi ^ (2 * (jp : Nat)) * 1 =
              psi ^ (2 * (jp : Nat)) * psi ^ (2 * ((j : Nat) - (jp : Nat))) := by
            rw [mul_one]
            exact hps
          exact (mul_left_cancel₀ hpne h1).symm
        exact hord ((j : Nat) - (jp : Nat)) (by omega) (by omega) hcancel
      · have hgt : (j : Nat) < (jp : Nat) := by omega
        have hd : 2 * (jp : Nat) = 2 * (j : Nat) + 2 * ((jp : Nat) - (j : Nat)) := by
          omega
        rw [hd, pow_add] at hps
        have hcancel : psi ^ (2 * ((jp : Nat) - (j : Nat))) = 1 := by
          have hpne : psi ^ (2 * (j : Nat)) ≠ 0 := pow_ne_zero _ hpsine
          have h1 : psi ^ (2 * (j : Nat)) * psi ^ (2 * ((jp : Nat) - (j : Nat))) =
              psi ^ (2 * (j : Nat)) * 1 := by
            rw [mul_one]
            exact hps
          exact mul_left_cancel₀ hpne h1
        exact hord ((jp : Nat) - (j : Nat)) (by omega) (by omega) hcancel
    rw [geom_sum_zero_of_root q hq (c ^ 2) n hxn hxne, mul_zero]

/-- The composed round trip: raw inverse of forward, then normalization,
recovers the polynomial. -/
theorem ntt_roundtrip (q n : Nat) (hq : Nat.Prime q) (psi psiInv nInv : ZMod q)
    (hinv : psi * psiInv = 1) (hninv : (n : ZMod q) * nInv = 1)
    (hpsi : psi ^ n = -1)
    (hord : ∀ d : Nat, d < n → 0 < d → psi ^ (2 * d) ≠ 1)
    (p : Fin n → ZMod q) :
    nttNormalize q n nInv (fromTransformRaw q n psiInv (toTransform q n psi p)) = p := by
  haveI : Fact (Nat.Prime q) := ⟨hq⟩
  funext j
  show nInv * (∑ i : Fin n,
      (∑ jp : Fin n, p jp * psi ^ ((2 * (i : Nat) + 1) * (jp : Nat))) *
        psiInv ^ ((2 * (i : Nat) + 1) * (j : Nat))) = p j
  have hstep1 : ∀ i : Fin n,
      (∑ jp : Fin n, p jp * psi ^ ((2 * (i : Nat) + 1) * (jp : Nat))) *
          psiInv ^ ((2 * (i : Nat) + 1) * (j : Nat)) =
        ∑ jp : Fin n, p jp *
          ((psi ^ (jp : Nat) * psiInv ^ (j : Nat)) ^ (2 * (i : Nat) + 1)) := by
    intro i
    rw [Finset.sum_mul]
    refine Finset.sum_congr rfl ?_
    intro jp _
    rw [mul_pow, ← pow_mul, ← pow_mul, Nat.mul_comm (jp : Nat) (2 * (i : Nat) + 1),
      Nat.mul_comm (j : Nat) (2 * (i : Nat) + 1), mul_assoc]
  rw [Finset.sum_congr rfl (fun i _ => hstep1 i), Finset.sum_comm]
  have hstep2 : ∀ jp : Fin n,
      (∑ i : Fin n, p jp * ((psi ^ (jp : Nat) * psiInv ^ (j : Nat)) ^ (2 * (i : Nat) + 1))) =
        p jp * (if jp = j then (n : ZMod q) else 0) := by
    intro jp
    rw [← Finset.mul_sum]
    refine congrArg (p jp * ·) ?_
    have hconv : (∑ i : Fin n,
        (psi ^ (jp : Nat) * psiInv ^ (j : Nat)) ^ (2 * (i : Nat) + 1)) =
        ∑ i in Finset.range n, (psi ^ (jp : Nat) * psiInv ^ (j : Nat)) ^ (2 * i + 1) :=
      Fin.sum_univ_eq_sum_range
        (fun m => (psi ^ (jp : Nat) * psiInv ^ (j : Nat)) ^ (2 * m + 1)) n
    rw [hconv]
    exact ntt_inner q n hq psi psiInv hinv hpsi hord j jp
  rw [Finset.sum_congr rfl (fun jp _ => hstep2 jp)]
  have hcollapse : (∑ jp : Fin n, p jp * (if jp = j then (n : ZMod q) else 0)) =
      p j * (n : ZMod q) := by
    rw [Finset.sum_eq_single j]
    · rw [if_pos rfl]
    · intro b _ hb
      rw [if_neg hb, mul_zero]
    · intro hj
      exact absurd (Finset.mem_univ j) hj
  rw [hcollapse, ← mul_assoc, mul_comm nInv (p j), mul_assoc, mul_comm nInv _, hninv, mul_one]

/-! ## Concrete collaborator instances used to exercise the model. -/

/-- A trivial 512-bit hash instance: constant 64-byte output. -/
def trivHashG : Bytes → Bytes := fun _ => List.replicate (2 * kyberSymBytes) 1

/-- A trivial 256-bit hash instance: constant 32-byte output. -/
def trivHashH : Bytes → Bytes := fun _ => List.replicate kyberSymBytes 2

/-- A trivial XOF-with-length instance standing for `shake256`. -/
def trivShake : Nat → Bytes → Bytes := fun l _ => List.replicate l 0

/-- A trivial `k = 2` algebraic core: zero polynomials. -/
def trivCore : Bytes → Bytes → List (List Nat) × List (List Nat) :=
  fun _ _ => (List.replicate 2 (List.replicate kyberN 0),
              List.replicate 2 (List.replicate kyberN 0))

/-- The all-zero RNG stream reporting success. -/
def zeroRNG : RNG := ⟨fun _ => 0, 0⟩

/-- The all-zero RNG stream reporting failure status 1. -/
def failRNG : RNG := ⟨fun _ => 0, 1⟩

/-- A trivial deterministic K-PKE pair: the identity cipher. -/
def trivEnc : Bytes → Bytes → Bytes → Bytes := fun _ m _ => m

/-- Trivial K-PKE decryption matching `trivEnc`. -/
def trivDec : Bytes → Bytes → Bytes := fun _ c => c

/-- The all-zero XOF block stream. -/
def zeroXof : XofFun := fun _ _ _ _ => List.replicate 168 0

/-! ## Decomposition of the assembled secret key. -/

theorem keypair_sk_decompose (k : Nat) (hashG hashH : Bytes → Bytes)
    (core : Bytes → Bytes → List (List Nat) × List (List Nat)) (r : RNG)
    (hG : ∀ x : Bytes, (hashG x).length = 2 * kyberSymBytes)
    (hH : ∀ x : Bytes, (hashH x).length = kyberSymBytes)
    (hcore : ∀ rho sigma : Bytes,
      (core rho sigma).1.length = k ∧ (∀ p ∈ (core rho sigma).1, p.length = kyberN) ∧
      (core rho sigma).2.length = k ∧ (∀ p ∈ (core rho sigma).2, p.length = kyberN)) :
    (crypto_kem_keypair hashG hashH core r).1.length = kyberPublicKeyBytes k ∧
    (crypto_kem_keypair hashG hashH core r).2.1.length = kyberSecretKeyBytes k ∧
    ((crypto_kem_keypair hashG hashH core r).2.1.drop (kyberIndcpaSecretKeyBytes k)).take
        (kyberPublicKeyBytes k) = (crypto_kem_keypair hashG hashH core r).1 ∧
    ((crypto_kem_keypair hashG hashH core r).2.1.drop
        (kyberSecretKeyBytes k - 2 * kyberSymBytes)).take kyberSymBytes =
      hashH (crypto_kem_keypair hashG hashH core r).1 ∧
    ((crypto_kem_keypair hashG hashH core r).2.1.drop
        (kyberSecretKeyBytes k - kyberSymBytes)).take kyberSymBytes =
      (randombytes r kyberSymBytes kyberSymBytes).1 ∧
    (crypto_kem_keypair hashG hashH core r).2.1 =
      (crypto_kem_keypair hashG hashH core r).2.1.take (kyberIndcpaSecretKeyBytes k) ++
        ((crypto_kem_keypair hashG hashH core r).1 ++
          (hashH (crypto_kem_keypair hashG hashH core r).1 ++
            (randombytes r kyberSymBytes kyberSymBytes).1)) := by
  obtain ⟨hc1, hc2, hc3, hc4⟩ :=
    hcore (seedExpand hashG (randombytes r 0 kyberSymBytes).1).1
      (seedExpand hashG (randombytes r 0 kyberSymBytes).1).2
  set d := (randombytes r 0 kyberSymBytes).1 with hd
  set rho := (seedExpand hashG d).1 with hrho
  set sigma := (seedExpand hashG d).2 with hsigma
  set ts := core rho sigma with hts
  have hrhol : rho.length = kyberSymBytes := by
    rw [hrho]
    show ((hashG d).take kyberSymBytes).length = kyberSymBytes
    rw [List.length_take, hG d]
    rfl
  have hpk : (crypto_kem_keypair hashG hashH core r).1 = pack_pk ts.1 rho := rfl
  have hsk : (crypto_kem_keypair hashG hashH core r).2.1 =
      pack_sk ts.2 ++ (pack_pk ts.1 rho ++
        (hashH (pack_pk ts.1 rho) ++ (randombytes r kyberSymBytes kyberSymBytes).1)) := rfl
  have hpkl : (pack_pk ts.1 rho).length = kyberPublicKeyBytes k :=
    pack_pk_length k ts.1 rho hc1 hc2 hrhol
  have hskl0 : (pack_sk ts.2).length = kyberIndcpaSecretKeyBytes k :=
    pack_sk_length k ts.2 hc3 hc4
  have hhl : (hashH (pack_pk ts.1 rho)).length = kyberSymBytes := hH _
  have hzl : (randombytes r kyberSymBytes kyberSymBytes).1.length = kyberSymBytes :=
    randombytes_length r kyberSymBytes kyberSymBytes
  refine ⟨by rw [hpk]; exact hpkl, ?_, ?_, ?_, ?_, ?_⟩
  · rw [hsk]
    simp only [List.length_append, hskl0, hpkl, hhl, hzl]
    show kyberIndcpaSecretKeyBytes k + (kyberPublicKeyBytes k + (32 + 32)) = _
    unfold kyberSecretKeyBytes kyberIndcpaSecretKeyBytes kyberPublicKeyBytes
      kyberIndcpaPublicKeyBytes kyberPolyVecBytes kyberSymBytes
    omega
  · rw [hsk, hpk, drop_append_exact _ _ _ hskl0, take_append_exact _ _ _ hpkl]
  · rw [hsk, hpk]
    have hoff : kyberSecretKeyBytes k - 2 * kyberSymBytes =
        kyberIndcpaSecretKeyBytes k + kyberPublicKeyBytes k := by
      unfold kyberSecretKeyBytes kyberIndcpaSecretKeyBytes kyberPublicKeyBytes
        kyberIndcpaPublicKeyBytes kyberPolyVecBytes kyberSymBytes
      omega
    rw [hoff, ← List.drop_drop, drop_append_exact _ _ _ hskl0,
      drop_append_exact _ _ _ hpkl, take_append_exact _ _ _ hhl]
  · rw [hsk]
    have hoff : kyberSecretKeyBytes k - kyberSymBytes =
        kyberIndcpaSecretKeyBytes k + (kyberPublicKeyBytes k + kyberSymBytes) := by
      unfold kyberSecretKeyBytes kyberIndcpaSecretKeyBytes kyberPublicKeyBytes
        kyberIndcpaPublicKeyBytes kyberPolyVecBytes kyberSymBytes
      omega
    rw [hoff, ← List.drop_drop, ← List.drop_drop, drop_append_exact _ _ _ hskl0,
      drop_append_exact _ _ _ hpkl, drop_append_exact _ _ _ hhl]
    have : (randombytes r kyberSymBytes kyberSymBytes).1.take kyberSymBytes =
        (randombytes r kyberSymBytes kyberSymBytes).1 := by
      rw [← hzl]
      exact List.take_length _
    exact this
  · rw [hsk, hpk, take_append_exact _ _ _ hskl0]

/-! ## Claim theorems. -/

/-- C3, as stated, is false on this code: the claim says the return
status of every `randombytes` call made by KeyGen is checked and an RNG
failure is surfaced to the caller.  In the repository, `crypto_kem_keypair`
ends in an unconditional `return 0;` and the docs state "callers do not
check return status" (`02_randomness_and_seeds.md:62-70`).  Concretely:
with an RNG whose status is the failure value 1, KeyGen still reports
success (status 0). -/
theorem C3_rng_check_counterexample :
    failRNG.status ≠ 0 ∧
    (crypto_kem_keypair trivHashG trivHashH trivCore failRNG).2.2 = 0 :=
  ⟨by decide, rfl⟩

/-- C3 (amended): KeyGen never fails: both `randombytes` statuses are
generated but ignored — the keypair output is a function of the RNG byte
stream alone, and the returned status is the constant `0` whatever the
RNG status says. -/
theorem C3_rng_status_ignored (hashG hashH : Bytes → Bytes)
    (core : Bytes → Bytes → List (List Nat) × List (List Nat))
    (r1 r2 : RNG) (hout : r1.out = r2.out) :
    (crypto_kem_keypair hashG hashH core r1).1 =
        (crypto_kem_keypair hashG hashH core r2).1 ∧
    (crypto_kem_keypair hashG hashH core r1).2.1 =
        (crypto_kem_keypair hashG hashH core r2).2.1 ∧
    (crypto_kem_keypair hashG hashH core r1).2.2 = 0 := by
  have hrb0 : (randombytes r1 0 kyberSymBytes).1 = (randombytes r2 0 kyberSymBytes).1 := by
    simp [randombytes, hout]
  have hrb1 : (randombytes r1 kyberSymBytes kyberSymBytes).1 =
      (randombytes r2 kyberSymBytes kyberSymBytes).1 := by
    simp [randombytes, hout]
  have hall : crypto_kem_keypair hashG hashH core r1 =
      crypto_kem_keypair hashG hashH core r2 := by
    simp only [crypto_kem_keypair, indcpa_keypair]
    rw [hrb0, hrb1]
  refine ⟨?_, ?_, rfl⟩ <;> rw [hall]

/-- Witness for the amended C3: the all-zero success RNG and the all-zero
failing RNG share a byte stream, so KeyGen produces identical keys from
both and reports 0 either way. -/
theorem C3_rng_status_ignored_witness :
    (crypto_kem_keypair trivHashG trivHashH trivCore zeroRNG).1 =
        (crypto_kem_keypair trivHashG trivHashH trivCore failRNG).1 ∧
    (crypto_kem_keypair trivHashG trivHashH trivCore zeroRNG).2.1 =
        (crypto_kem_keypair trivHashG trivHashH trivCore failRNG).2.1 ∧
    (crypto_kem_keypair trivHashG trivHashH trivCore zeroRNG).2.2 = 0 :=
  C3_rng_status_ignored trivHashG trivHashH trivCore zeroRNG failRNG rfl

/-- C4: for the k = 2, q = 3329, degree 256, eta = 2 parameter set,
KeyGen produces a PublicKey of exactly 800 bytes and a SecretKey of
exactly 1632 bytes laid out as `encodedS ‖ PublicKey ‖ hash(PublicKey) ‖ z`,
with `hash(PublicKey)` being the 32 bytes at offset `SecretKeyLength - 64`
and `z` the 32 bytes at offset `SecretKeyLength - 32`. -/
theorem C4_keygen_sizes (hashG hashH : Bytes → Bytes)
    (core : Bytes → Bytes → List (List Nat) × List (List Nat)) (r : RNG)
    (hG : ∀ x : Bytes, (hashG x).length = 2 * kyberSymBytes)
    (hH : ∀ x : Bytes, (hashH x).length = kyberSymBytes)
    (hcore : ∀ rho sigma : Bytes,
      (core rho sigma).1.length = 2 ∧ (∀ p ∈ (core rho sigma).1, p.length = kyberN) ∧
      (core rho sigma).2.length = 2 ∧ (∀ p ∈ (core rho sigma).2, p.length = kyberN)) :
    (crypto_kem_keypair hashG hashH core r).1.length = 800 ∧
    (crypto_kem_keypair hashG hashH core r).2.1.length = 1632 ∧
    (crypto_kem_keypair hashG hashH core r).2.1 =
      (crypto_kem_keypair hashG hashH core r).2.1.take 768 ++
        ((crypto_kem_keypair hashG hashH core r).1 ++
          (hashH (crypto_kem_keypair hashG hashH core r).1 ++
            (randombytes r kyberSymBytes kyberSymBytes).1)) ∧
    ((crypto_kem_keypair hashG hashH core r).2.1.drop (1632 - 64)).take 32 =
      hashH (crypto_kem_keypair hashG hashH core r).1 ∧
    ((crypto_kem_keypair hashG hashH core r).2.1.drop (1632 - 32)).take 32 =
      (randombytes r kyberSymBytes kyberSymBytes).1 := by
  obtain ⟨h1, h2, h3, h4, h5, h6⟩ := keypair_sk_decompose 2 hashG hashH core r hG hH hcore
  exact ⟨h1, h2, h6, h4, h5⟩

/-- Witness for C4 at the trivial collaborators and the zero RNG. -/
theorem C4_keygen_sizes_witness :
    (crypto_kem_keypair trivHashG trivHashH trivCore zeroRNG).1.length = 800 ∧
    (crypto_kem_keypair trivHashG trivHashH trivCore zeroRNG).2.1.length = 1632 ∧
    (crypto_kem_keypair trivHashG trivHashH trivCore zeroRNG).2.1 =
      (crypto_kem_keypair trivHashG trivHashH trivCore zeroRNG).2.1.take 768 ++
        ((crypto_kem_keypair trivHashG trivHashH trivCore zeroRNG).1 ++
          (trivHashH (crypto_kem_keypair trivHashG trivHashH trivCore zeroRNG).1 ++
            (randombytes zeroRNG kyberSymBytes kyberSymBytes).1)) ∧
    ((crypto_kem_keypair trivHashG trivHashH trivCore zeroRNG).2.1.drop (1632 - 64)).take 32 =
      trivHashH (crypto_kem_keypair trivHashG trivHashH trivCore zeroRNG).1 ∧
    ((crypto_kem_keypair trivHashG trivHashH trivCore zeroRNG).2.1.drop (1632 - 32)).take 32 =
      (randombytes zeroRNG kyberSymBytes kyberSymBytes).1 :=
  C4_keygen_sizes trivHashG trivHashH trivCore zeroRNG
    (fun x => by simp [trivHashG])
    (fun x => by simp [trivHashH])
    (fun rho sigma => by
      refine ⟨by simp [trivCore], ?_, by simp [trivCore], ?_⟩ <;>
        · intro p hp
          simp only [trivCore, List.mem_replicate] at hp
          simp [hp.2])

/-- C5: KeyGen draws a single 32-byte random seed `d` and expands it with
the 512-bit hash `G` into exactly 64 bytes; the first 32 bytes become
`publicseed` (rho) and the second 32 bytes become `noiseseed` (sigma). -/
theorem C5_seed_expansion (hashG : Bytes → Bytes) (r : RNG)
    (hG : ∀ x : Bytes, (hashG x).length = 2 * kyberSymBytes) :
    (indcpaSeeds hashG r).1.length = 32 ∧
    (hashG (indcpaSeeds hashG r).1).length = 64 ∧
    (indcpaSeeds hashG r).2.1 = (hashG (indcpaSeeds hashG r).1).take 32 ∧
    (indcpaSeeds hashG r).2.2 = (hashG (indcpaSeeds hashG r).1).drop 32 ∧
    (indcpaSeeds hashG r).2.1.length = 32 ∧
    (indcpaSeeds hashG r).2.2.length = 32 ∧
    (indcpaSeeds hashG r).2.1 ++ (indcpaSeeds hashG r).2.2 =
      hashG (indcpaSeeds hashG r).1 := by
  have hdl : (indcpaSeeds hashG r).1.length = 32 :=
    randombytes_length r 0 kyberSymBytes
  have hbuf : (hashG (indcpaSeeds hashG r).1).length = 64 := by
    rw [hG]
    decide
  have hrho : (indcpaSeeds hashG r).2.1 = (hashG (indcpaSeeds hashG r).1).take 32 := rfl
  have hsig0 : (indcpaSeeds hashG r).2.2 =
      ((hashG (indcpaSeeds hashG r).1).drop 32).take 32 := rfl
  have hdroplen : ((hashG (indcpaSeeds hashG r).1).drop 32).length = 32 := by
    rw [List.length_drop, hbuf]
  have hsig : (indcpaSeeds hashG r).2.2 = (hashG (indcpaSeeds hashG r).1).drop 32 := by
    rw [hsig0]
    exact List.take_of_length_le (by rw [hdroplen])
  refine ⟨hdl, hbuf, hrho, hsig, ?_, ?_, ?_⟩
  · rw [hrho, List.length_take, hbuf]
    decide
  · rw [hsig, hdroplen]
  · rw [hrho, hsig, List.take_append_drop]

/-- Witness for C5 at the trivial 512-bit hash and the zero RNG. -/
theorem C5_seed_expansion_witness :
    (indcpaSeeds trivHashG zeroRNG).1.length = 32 ∧
    (trivHashG (indcpaSeeds trivHashG zeroRNG).1).length = 64 ∧
    (indcpaSeeds trivHashG zeroRNG).2.1 =
      (trivHashG (indcpaSeeds trivHashG zeroRNG).1).take 32 ∧
    (indcpaSeeds trivHashG zeroRNG).2.2 =
      (trivHashG (indcpaSeeds trivHashG zeroRNG).1).drop 32 ∧
    (indcpaSeeds trivHashG zeroRNG).2.1.length = 32 ∧
    (indcpaSeeds trivHashG zeroRNG).2.2.length = 32 ∧
    (indcpaSeeds trivHashG zeroRNG).2.1 ++ (indcpaSeeds trivHashG zeroRNG).2.2 =
      trivHashG (indcpaSeeds trivHashG zeroRNG).1 :=
  C5_seed_expansion trivHashG zeroRNG (fun x => by simp [trivHashG])

/-- C6: the noise sampler in KeyGen runs on a single nonce counter
starting at 0 and incremented once per call: the k secret polynomials
consume exactly nonces `0..k-1`, the k error polynomials exactly
`k..2k-1`, the final counter value is `2k`, and no nonce is used for
both `s` and `e`. -/
theorem C6_nonce_discipline (getnoise : Bytes → Nat → List Nat) (sigma : Bytes)
    (k : Nat) :
    indcpaSampleNoise getnoise sigma k =
      ((List.range k).map (fun i => getnoise sigma i),
       (List.range k).map (fun i => getnoise sigma (k + i)), 2 * k) ∧
    ∀ i ∈ List.range k, ∀ j ∈ List.range k, i ≠ k + j := by
  constructor
  · have h1 : indcpaSampleNoise getnoise sigma k =
        ((noiseLoop getnoise sigma 0 k).1,
         (noiseLoop getnoise sigma (noiseLoop getnoise sigma 0 k).2 k).1,
         (noiseLoop getnoise sigma (noiseLoop getnoise sigma 0 k).2 k).2) := rfl
    rw [h1]
    simp only [noiseLoop_eq_map, Nat.zero_add]
    rw [Nat.two_mul]
  · intro i hi j hj
    rw [List.mem_range] at hi hj
    omega

/-- C7: matrix-entry generation is a pure function of `(seed, row, col)`:
the entry the sequential `gen_matrix` loop stores at `(i, j)` equals the
standalone `sampleMatrixEntry` run on its own fresh XOF stream (block
counter starting at 0), and the absorb step discards whatever state —
including the squeeze-block counter — the previous entry left behind. -/
theorem C7_matrix_entry_pure (xof : XofFun) (fuel : Nat) (seed : Bytes)
    (transposed : Bool) (k : Nat) (m : List (List Nat))
    (hm : gen_matrix xof fuel seed transposed k = some m)
    (i j : Nat) (hi : i < k) (hj : j < k) :
    m.get? (i * k + j) =
      sampleMatrixEntry xof fuel seed (if transposed then i else j)
        (if transposed then j else i) ∧
    ∀ st0 : XofState,
      genMatrixEntryFrom xof fuel seed (if transposed then i else j)
        (if transposed then j else i) st0 =
      entryLoop xof fuel
        ⟨seed, if transposed then i else j, if transposed then j else i, 0⟩ [] := by
  constructor
  · obtain ⟨hlen, hget⟩ :=
      entriesLoop_get xof fuel seed transposed (genMatrixPairs k) ⟨[], 0, 0, 0⟩ m hm
    rw [hget (i * k + j), rowMajor_get k i j hi hj]
    rfl
  · intro st0
    rfl

set_option maxRecDepth 100000 in
/-- Witness for C7: a 1×1 matrix over the all-zero XOF stream; the loop
entry and the standalone per-entry sampler agree. -/
theorem C7_matrix_entry_pure_witness :
    [List.replicate 256 0].get? 0 = sampleMatrixEntry zeroXof 4 [] 0 0 ∧
    ∀ st0 : XofState,
      genMatrixEntryFrom zeroXof 4 [] 0 0 st0 = entryLoop zeroXof 4 ⟨[], 0, 0, 0⟩ [] := by
  have h := C7_matrix_entry_pure zeroXof 4 [] false 1 [List.replicate 256 0]
    (by decide) 0 0 (by decide) (by decide)
  exact ⟨h.1, h.2⟩

/-- C8: a 13-bit candidate parsed from the XOF stream is accepted iff it
is strictly below `q` (the loop equals filter-below-q then truncate), and
a successfully generated matrix entry has exactly `degree` = 256
coefficients, each in `[0, q)`. -/
theorem C8_rejection_sampling :
    (∀ (buf : Bytes) (need : Nat),
      rejUniform buf need =
        ((parse13 buf).filter (fun v => decide (v < kyberQ))).take need) ∧
    (∀ (xof : XofFun) (fuel : Nat) (seed : Bytes) (x y : Nat) (p : List Nat),
      sampleMatrixEntry xof fuel seed x y = some p →
      p.length = kyberN ∧ ∀ c ∈ p, c < kyberQ) := by
  refine ⟨rejUniform_eq, ?_⟩
  intro xof fuel seed x y p hp
  unfold sampleMatrixEntry at hp
  cases he : entryLoop xof fuel ⟨seed, x, y, 0⟩ [] with
  | none => rw [he] at hp; exact absurd hp (by simp)
  | some pst =>
    rw [he] at hp
    have hp1 : pst.1 = p := by
      simpa using hp
    subst hp1
    exact entryLoop_some xof fuel ⟨seed, x, y, 0⟩ [] pst.1 pst.2 (by simp) (by
      rw [he])

set_option maxRecDepth 100000 in
/-- Witness for C8: the pair `(0,0)` parses to candidate 0 < q (kept) and
`(255,255)` to 8191 ≥ q (discarded); the all-zero stream yields an entry
of exactly 256 coefficients, all below q. -/
theorem C8_rejection_sampling_witness :
    rejUniform [0, 0, 255, 255] 2 = [0] ∧
    (List.replicate 256 0).length = kyberN ∧
    (∀ c ∈ List.replicate 256 0, c < kyberQ) := by
  refine ⟨?_, ?_, ?_⟩
  · rw [C8_rejection_sampling.1 [0, 0, 255, 255] 2]
    decide
  · exact (C8_rejection_sampling.2 zeroXof 4 [] 0 0 (List.replicate 256 0) (by decide)).1
  · exact (C8_rejection_sampling.2 zeroXof 4 [] 0 0 (List.replicate 256 0) (by decide)).2

/-- C9: for every polynomial `p`, `fromTransform(toTransform(p)) == p`
coefficient-wise once the required normalization (the
from-Montgomery/scaling correction) is applied after the inverse
transform, for any parameter set with prime `q` and a primitive
`2n`-th root `psi` (i.e. `psi^n = -1` with `psi²` of order `n`), with
`psiInv` and `nInv` the precomputed inverse constants. -/
theorem C9_ntt_involution (q n : Nat) (hq : Nat.Prime q)
    (psi psiInv nInv : ZMod q)
    (hinv : psi * psiInv = 1) (hninv : (n : ZMod q) * nInv = 1)
    (hpsi : psi ^ n = -1)
    (hord : ∀ d : Nat, d < n → 0 < d → psi ^ (2 * d) ≠ 1)
    (p : Fin n → ZMod q) :
    nttNormalize q n nInv (fromTransformRaw q n psiInv (toTransform q n psi p)) = p :=
  ntt_roundtrip q n hq psi psiInv nInv hinv hninv hpsi hord p

/-- Witness for C9 at the concrete parameter set `q = 17`, `n = 4`,
`psi = 2` (so `2⁴ = 16 = -1`), `psiInv = 9`, `nInv = 13`, on the
polynomial `(1, 2, 3, 4)`. -/
theorem C9_ntt_involution_witness :
    nttNormalize 17 4 13 (fromTransformRaw 17 4 9 (toTransform 17 4 2
      (fun i : Fin 4 => ((i : Nat) + 1 : ZMod 17)))) = (fun i : Fin 4 => ((i : Nat) + 1 : ZMod 17)) :=
  C9_ntt_involution 17 4 (by norm_num) 2 9 13 (by decide) (by decide) (by decide)
    (by decide) (fun i : Fin 4 => ((i : Nat) + 1 : ZMod 17))

/-- C10: in the 90s variant (`KYBER_90S` defined) `symmetric.h` rejects
compilation via `#error` unless `KYBER_SSBYTES` equals 32; in both
variants the `kdf` macro writes exactly `KYBER_SSBYTES` output bytes
regardless of the input length; and the actual parameter value
`KYBER_SSBYTES = 32` compiles in both variants, so every shared secret
produced through `kdf` in a compiled build is 32 bytes. -/
theorem C10_kdf_output_length (kyber90s : Bool) (ssbytes : Nat)
    (sha256 : Bytes → Bytes) (shake256 : Nat → Bytes → Bytes)
    (hsha : ∀ x : Bytes, (sha256 x).length = 32)
    (hshake : ∀ (l : Nat) (x : Bytes), (shake256 l x).length = l) :
    (symmetricHCompiles true ssbytes = true ↔ ssbytes = 32) ∧
    (symmetricHCompiles kyber90s ssbytes = true →
      ∀ input : Bytes,
        (if kyber90s then kdf90s sha256 input
         else kdfFips shake256 ssbytes input).length = ssbytes) ∧
    symmetricHCompiles kyber90s kyberSSBytes = true := by
  refine ⟨?_, ?_, ?_⟩
  · constructor
    · intro h
      by_contra hne
      simp [symmetricHCompiles, hne] at h
    · intro h
      subst h
      rfl
  · intro hcomp input
    cases kyber90s with
    | true =>
      have h32 : ssbytes = 32 := by
        simp [symmetricHCompiles] at hcomp
        exact hcomp
      simp [kdf90s, hsha, h32]
    | false =>
      simp [kdfFips, hshake]
  · cases kyber90s <;> rfl

/-- Witness for C10: the 90s variant with `KYBER_SSBYTES = 32` and
constant-digest instances. -/
theorem C10_kdf_output_length_witness :
    (symmetricHCompiles true 32 = true ↔ 32 = 32) ∧
    (symmetricHCompiles true 32 = true →
      ∀ input : Bytes,
        (if true then kdf90s (fun _ => List.replicate 32 0) input
         else kdfFips trivShake 32 input).length = 32) ∧
    symmetricHCompiles true kyberSSBytes = true :=
  C10_kdf_output_length true 32 (fun _ => List.replicate 32 0) trivShake
    (fun x => by simp) (fun l x => by simp [trivShake])

theorem cmov_verify_select (kbar z c2 c : Bytes)
    (hkl : kbar.length = kyberSymBytes) (hzl : z.length = kyberSymBytes)
    (hkb : ∀ v ∈ kbar, v < 256) (hzb : ∀ v ∈ z, v < 256)
    (hlen : c2.length = c.length) (hc2b : ∀ v ∈ c2, v < 256)
    (hcb : ∀ v ∈ c, v < 256) :
    cmov kbar z (verify c2 c) = if c2 = c then kbar else z := by
  rw [verify_spec c2 c hlen hc2b hcb]
  by_cases he : c2 = c
  · simp only [he, if_pos rfl, if_pos]
    exact cmov_zero kbar z (by rw [hkl, hzl])
  · simp only [if_neg he]
    exact cmov_one kbar z (by rw [hkl, hzl]) hkb hzb

/-- C2: `crypto_kem_dec` always returns a shared secret of the fixed
`KYBER_SSBYTES` length and a success status of 0 — there is no error,
exception, or early return for an invalid ciphertext.  The returned
secret equals `kdf(K̄ ‖ H(c))` when the deterministic re-encryption
reproduces the received ciphertext and `kdf(z ‖ H(c))` otherwise, and
the selection between them is computed by the branchless `cmov` on the
`verify` flag, not by a conditional. -/
theorem C2_implicit_rejection (k : Nat) (hashH hashG : Bytes → Bytes)
    (shake256 : Nat → Bytes → Bytes)
    (enc : Bytes → Bytes → Bytes → Bytes) (dec : Bytes → Bytes → Bytes)
    (sk c : Bytes)
    (hsh : ∀ (l : Nat) (x : Bytes), (shake256 l x).length = l)
    (hG : ∀ x : Bytes, (hashG x).length = 2 * kyberSymBytes)
    (hGb : ∀ x : Bytes, ∀ v ∈ hashG x, v < 256)
    (hsk : sk.length = kyberSecretKeyBytes k)
    (hskb : ∀ v ∈ sk, v < 256)
    (hcb : ∀ v ∈ c, v < 256)
    (hencl : ∀ p mm co : Bytes, (enc p mm co).length = c.length)
    (hencb : ∀ p mm co : Bytes, ∀ v ∈ enc p mm co, v < 256) :
    (crypto_kem_dec k hashH hashG shake256 enc dec sk c).1.length = kyberSSBytes ∧
    (crypto_kem_dec k hashH hashG shake256 enc dec sk c).2 = 0 ∧
    (crypto_kem_dec k hashH hashG shake256 enc dec sk c).1 =
      (let skpke := sk.take (kyberIndcpaSecretKeyBytes k)
       let pk := (sk.drop (kyberIndcpaSecretKeyBytes k)).take (kyberPublicKeyBytes k)
       let hpk := (sk.drop (kyberSecretKeyBytes k - 2 * kyberSymBytes)).take kyberSymBytes
       let z := (sk.drop (kyberSecretKeyBytes k - kyberSymBytes)).take kyberSymBytes
       let m2 := dec skpke c
       let kr := hashG (m2 ++ hpk)
       if enc pk m2 (kr.drop kyberSymBytes) = c
       then kdf shake256 (kr.take kyberSymBytes ++ hashH c)
       else kdf shake256 (z ++ hashH c)) := by
  set skpke := sk.take (kyberIndcpaSecretKeyBytes k) with hskpke
  set pk := (sk.drop (kyberIndcpaSecretKeyBytes k)).take (kyberPublicKeyBytes k) with hpk
  set hpkv := (sk.drop (kyberSecretKeyBytes k - 2 * kyberSymBytes)).take kyberSymBytes
    with hhpkv
  set zv := (sk.drop (kyberSecretKeyBytes k - kyberSymBytes)).take kyberSymBytes with hzv
  set m2 := dec skpke c with hm2
  set kr := hashG (m2 ++ hpkv) with hkr
  set c2 := enc pk m2 (kr.drop kyberSymBytes) with hc2
  have hdef : crypto_kem_dec k hashH hashG shake256 enc dec sk c =
      (kdf shake256 (cmov (kr.take kyberSymBytes) zv (verify c2 c) ++ hashH c), 0) := rfl
  have hkbarl : (kr.take kyberSymBytes).length = kyberSymBytes := by
    rw [List.length_take, hkr, hG]
    decide
  have hzvl : zv.length = kyberSymBytes := by
    have h1 : kyberSymBytes ≤ kyberSecretKeyBytes k := by
      unfold kyberSecretKeyBytes kyberIndcpaSecretKeyBytes kyberIndcpaPublicKeyBytes
        kyberPolyVecBytes kyberSymBytes
      omega
    rw [hzv, List.length_take, List.length_drop, hsk]
    have h2 : kyberSecretKeyBytes k - (kyberSecretKeyBytes k - kyberSymBytes) =
        kyberSymBytes := by
      omega
    rw [h2]
    exact Nat.min_self _
  have hkbarb : ∀ v ∈ kr.take kyberSymBytes, v < 256 := by
    intro v hv
    exact hGb _ v (List.take_subset _ _ hv)
  have hzvb : ∀ v ∈ zv, v < 256 := by
    intro v hv
    rw [hzv] at hv
    exact hskb v (List.drop_subset _ _ (List.take_subset _ _ hv))
  have hc2l : c2.length = c.length := hencl pk m2 (kr.drop kyberSymBytes)
  have hc2b : ∀ v ∈ c2, v < 256 := hencb pk m2 (kr.drop kyberSymBytes)
  have hsel : cmov (kr.take kyberSymBytes) zv (verify c2 c) =
      if c2 = c then kr.take kyberSymBytes else zv :=
    cmov_verify_select (kr.take kyberSymBytes) zv c2 c hkbarl hzvl hkbarb hzvb
      hc2l hc2b hcb
  refine ⟨?_, ?_, ?_⟩
  · rw [hdef]
    exact hsh kyberSSBytes _
  · rw [hdef]
  · rw [hdef]
    show kdf shake256 (cmov (kr.take kyberSymBytes) zv (verify c2 c) ++ hashH c) =
      if c2 = c then kdf shake256 (kr.take kyberSymBytes ++ hashH c)
      else kdf shake256 (zv ++ hashH c)
    rw [hsel]
    by_cases he : c2 = c
    · rw [if_pos he, if_pos he]
    · rw [if_neg he, if_neg he]

set_option maxRecDepth 100000 in
/-- Witness for C2: trivial collaborators with a constant one-byte
cipher, an all-zero 1632-byte secret key, and the ciphertext `[0]`, on
which the re-encryption matches and the honest branch is taken. -/
theorem C2_implicit_rejection_witness :
    (crypto_kem_dec 2 trivHashH trivHashG trivShake (fun _ _ _ => [0]) trivDec
        (List.replicate 1632 0) [0]).1.length = kyberSSBytes ∧
    (crypto_kem_dec 2 trivHashH trivHashG trivShake (fun _ _ _ => [0]) trivDec
        (List.replicate 1632 0) [0]).2 = 0 ∧
    (crypto_kem_dec 2 trivHashH trivHashG trivShake (fun _ _ _ => [0]) trivDec
        (List.replicate 1632 0) [0]).1 =
      (let skpke := (List.replicate 1632 0 : Bytes).take (kyberIndcpaSecretKeyBytes 2)
       let pk := ((List.replicate 1632 0 : Bytes).drop
          (kyberIndcpaSecretKeyBytes 2)).take (kyberPublicKeyBytes 2)
       let hpk := ((List.replicate 1632 0 : Bytes).drop
          (kyberSecretKeyBytes 2 - 2 * kyberSymBytes)).take kyberSymBytes
       let z := ((List.replicate 1632 0 : Bytes).drop
          (kyberSecretKeyBytes 2 - kyberSymBytes)).take kyberSymBytes
       let m2 := trivDec skpke [0]
       let kr := trivHashG (m2 ++ hpk)
       if (fun _ _ _ => ([0] : Bytes)) pk m2 (kr.drop kyberSymBytes) = [0]
       then kdf trivShake (kr.take kyberSymBytes ++ trivHashH [0])
       else kdf trivShake (z ++ trivHashH [0])) :=
  C2_implicit_rejection 2 trivHashH trivHashG trivShake (fun _ _ _ => [0]) trivDec
    (List.replicate 1632 0) [0]
    (fun l x => by simp [trivShake])
    (fun x => by simp [trivHashG])
    (fun x v hv => by
      simp only [trivHashG, List.mem_replicate] at hv
      omega)
    (by norm_num [kyberSecretKeyBytes, kyberIndcpaSecretKeyBytes,
      kyberIndcpaPublicKeyBytes, kyberPolyVecBytes, kyberSymBytes, kyberPolyBytes])
    (fun v hv => by
      simp only [List.mem_replicate] at hv
      omega)
    (fun v hv => by
      simp only [List.mem_singleton] at hv
      omega)
    (fun p mm co => rfl)
    (fun p mm co v hv => by
      simp only [List.mem_singleton] at hv
      omega)

/-- C1: for every key pair produced by KeyGen and every message, if the
K-PKE decryption recovers the encapsulated message (the "up to the
bounded decryption-failure probability" caveat of the claim, taken as a
hypothesis on this input), then Decapsulate applied to the Encapsulate
ciphertext returns exactly the Encapsulate shared secret: the
deterministic re-encryption reproduces the ciphertext, the constant-time
compare accepts, the `cmov` keeps the honest `K̄`, and both sides hash
`K̄ ‖ H(c)`. -/
theorem C1_fo_roundtrip (k : Nat) (hashG hashH : Bytes → Bytes)
    (shake256 : Nat → Bytes → Bytes)
    (core : Bytes → Bytes → List (List Nat) × List (List Nat)) (r : RNG)
    (enc : Bytes → Bytes → Bytes → Bytes) (dec : Bytes → Bytes → Bytes)
    (m : Bytes)
    (hG : ∀ x : Bytes, (hashG x).length = 2 * kyberSymBytes)
    (hH : ∀ x : Bytes, (hashH x).length = kyberSymBytes)
    (hcore : ∀ rho sigma : Bytes,
      (core rho sigma).1.length = k ∧ (∀ p ∈ (core rho sigma).1, p.length = kyberN) ∧
      (core rho sigma).2.length = k ∧ (∀ p ∈ (core rho sigma).2, p.length = kyberN))
    (hdec : dec
        ((crypto_kem_keypair hashG hashH core r).2.1.take (kyberIndcpaSecretKeyBytes k))
        (crypto_kem_enc hashH hashG shake256 enc
          (crypto_kem_keypair hashG hashH core r).1 m).1 = m) :
    (crypto_kem_dec k hashH hashG shake256 enc dec
        (crypto_kem_keypair hashG hashH core r).2.1
        (crypto_kem_enc hashH hashG shake256 enc
          (crypto_kem_keypair hashG hashH core r).1 m).1).1 =
      (crypto_kem_enc hashH hashG shake256 enc
        (crypto_kem_keypair hashG hashH core r).1 m).2 := by
  obtain ⟨hpkl, hskl, hpks, hhpks, hzs, hlayout⟩ :=
    keypair_sk_decompose k hashG hashH core r hG hH hcore
  set pk := (crypto_kem_keypair hashG hashH core r).1 with hpk0
  set sk := (crypto_kem_keypair hashG hashH core r).2.1 with hsk0
  set c := (crypto_kem_enc hashH hashG shake256 enc pk m).1 with hc0
  have hcdef : c = enc pk m ((hashG (m ++ hashH pk)).drop kyberSymBytes) := rfl
  have hssdef : (crypto_kem_enc hashH hashG shake256 enc pk m).2 =
      kdf shake256 ((hashG (m ++ hashH pk)).take kyberSymBytes ++ hashH c) := rfl
  set skpke := sk.take (kyberIndcpaSecretKeyBytes k) with hskpke0
  set pkx := (sk.drop (kyberIndcpaSecretKeyBytes k)).take (kyberPublicKeyBytes k)
    with hpkx0
  set hpkx := (sk.drop (kyberSecretKeyBytes k - 2 * kyberSymBytes)).take kyberSymBytes
    with hhpkx0
  set zx := (sk.drop (kyberSecretKeyBytes k - kyberSymBytes)).take kyberSymBytes
    with hzx0
  set m2 := dec skpke c with hm20
  set krx := hashG (m2 ++ hpkx) with hkrx0
  set c2 := enc pkx m2 (krx.drop kyberSymBytes) with hc20
  have hdef : (crypto_kem_dec k hashH hashG shake256 enc dec sk c).1 =
      kdf shake256 (cmov (krx.take kyberSymBytes) zx (verify c2 c) ++ hashH c) := rfl
  have hm2 : m2 = m := hdec
  have hkr : krx = hashG (m ++ hashH pk) := by
    rw [hkrx0, hm2, hhpks]
  have hc2 : c2 = c := by
    rw [hc20, hpks, hm2, hkr]
    exact hcdef.symm
  have hkbarl : (krx.take kyberSymBytes).length = kyberSymBytes := by
    rw [List.length_take, hkr, hG]
    decide
  have hzxl : zx.length = kyberSymBytes := by
    rw [hzs]
    exact randombytes_length r kyberSymBytes kyberSymBytes
  have hsel : cmov (krx.take kyberSymBytes) zx (verify c2 c) = krx.take kyberSymBytes := by
    rw [hc2, verify_eq_zero_of_eq c c rfl]
    exact cmov_zero _ _ (by rw [hkbarl, hzxl])
  rw [hdef, hsel, hkr, hssdef]

/-- Witness for C1: trivial collaborators, the identity cipher (for which
decryption always succeeds), the zero RNG, and the message `[7]`. -/
theorem C1_fo_roundtrip_witness :
    (crypto_kem_dec 2 trivHashH trivHashG trivShake trivEnc trivDec
        (crypto_kem_keypair trivHashG trivHashH trivCore zeroRNG).2.1
        (crypto_kem_enc trivHashH trivHashG trivShake trivEnc
          (crypto_kem_keypair trivHashG trivHashH trivCore zeroRNG).1 [7]).1).1 =
      (crypto_kem_enc trivHashH trivHashG trivShake trivEnc
        (crypto_kem_keypair trivHashG trivHashH trivCore zeroRNG).1 [7]).2 :=
  C1_fo_roundtrip 2 trivHashG trivHashH trivShake trivCore zeroRNG trivEnc trivDec [7]
    (fun x => by simp [trivHashG])
    (fun x => by simp [trivHashH])
    (fun rho sigma => by
      refine ⟨by simp [trivCore], ?_, by simp [trivCore], ?_⟩ <;>
        · intro p hp
          simp only [trivCore, List.mem_replicate] at hp
          simp [hp.2])
    rfl

/-- Witness for C6 at `k = 2` with a sampler echoing its nonce: `s` is
built from nonces 0,1 and `e` from nonces 2,3, final counter 4. -/
theorem C6_nonce_discipline_witness :
    indcpaSampleNoise (fun _ n => [n]) [] 2 =
      ((List.range 2).map (fun i => [i]),
       (List.range 2).map (fun i => [2 + i]), 2 * 2) ∧
    ∀ i ∈ List.range 2, ∀ j ∈ List.range 2, i ≠ 2 + j :=
  C6_nonce_discipline (fun _ n => [n]) [] 2
